import Mathlib

/-!
S-DES (main.go): a shallow embedding and its verification.

Go slices of `int` are modelled as `List Int`; a run that ends in a Go
runtime panic (index out of range, slice bounds out of range) is modelled
as `none`, a run that returns as `some` of the returned value.  Go's `int`
is taken to be 64 bits wide (two's complement); the wrap-around is written
out wherever an arithmetic result can leave that range.
-/

namespace SDES

/-! ## Go primitives -/

/-- Two's-complement wrap-around of a mathematical integer into the range of
Go's 64-bit `int`, `-2^63 .. 2^63 - 1`. -/
def wrapInt (x : Int) : Int :=
  (x + 9223372036854775808) % 18446744073709551616 - 9223372036854775808

/-- Go's index expression `s[i]`: the element at position `i`, or a panic
(`none`) when `i < 0` or `len(s) <= i`. -/
def index {α : Type} (s : List α) (i : Int) : Option α :=
  if 0 ≤ i then s[i.toNat]? else none

/-- The effect of a Go loop `for i := range ... { output[i] = e_i }` over a
freshly made `output`: given the results of the `e_i` in order, the filled
slice, or a panic as soon as one `e_i` panics. -/
def collect {α : Type} : List (Option α) → Option (List α)
  | [] => some []
  | none :: _ => none
  | some x :: rest =>
    match collect rest with
    | none => none
    | some out => some (x :: out)

/-- Go's slice expression `s[:k]` on a slice whose capacity equals its
length: panics when `k > len(s)`. -/
def sliceTo (s : List Int) (k : Nat) : Option (List Int) :=
  if k ≤ s.length then some (s.take k) else none

/-- Go's slice expression `s[k:]`: panics when `k > len(s)`. -/
def sliceFrom (s : List Int) (k : Nat) : Option (List Int) :=
  if k ≤ s.length then some (s.drop k) else none

/-! ## Tables (main.go, lines 11-39) -/

/-- The table `p10`. -/
def p10 : List Int := [3, 5, 2, 7, 4, 10, 1, 9, 8, 6]

/-- The table `p8`. -/
def p8 : List Int := [6, 3, 7, 4, 8, 5, 10, 9]

/-- The table `ip`. -/
def ip : List Int := [2, 6, 3, 1, 4, 8, 5, 7]

/-- The table `ep`. -/
def ep : List Int := [4, 1, 2, 3, 2, 3, 4, 1]

/-- The table `ipInverse`. -/
def ipInverse : List Int := [4, 1, 3, 5, 7, 2, 8, 6]

/-- The table `sBox0`. -/
def sBox0 : List (List Int) :=
  [[1, 0, 3, 2],
   [3, 2, 1, 0],
   [0, 2, 1, 3],
   [3, 1, 3, 2]]

/-- The table `sBox1`. -/
def sBox1 : List (List Int) :=
  [[0, 1, 2, 3],
   [2, 0, 1, 3],
   [3, 0, 1, 0],
   [2, 1, 0, 3]]

/-- The literal `[]int{2, 4, 3, 1}` in `encrypt` (the P4 permutation). -/
def p4 : List Int := [2, 4, 3, 1]

/-! ## The functions of main.go -/

/-- The function `permute` (main.go, lines 96-102): `output[i] = input[v-1]`
for each entry `v` of `table`, in order.  The subtraction `v-1` is left
unwrapped: it leaves the `int` range only for `v = -2^63`, where Go computes
the index `2^63 - 1`, which no slice has, so both readings panic. -/
def permute (input : List Int) (table : List Int) : Option (List Int) :=
  collect (table.map (fun v => index input (v - 1)))

/-- The function `leftShift` (main.go, lines 105-112): for `i` from `0` to
`n - 1`, `output[i] = input[(i+shift)%n]`, where `i+shift` is an `int`
addition (it wraps around) and `%` is Go's truncated remainder. -/
def leftShift (input : List Int) (shift : Int) : Option (List Int) :=
  let n := input.length
  collect ((List.range n).map
    (fun (i : Nat) => index input (Int.tmod (wrapInt ((i : Int) + shift)) (n : Int))))

/-- The function `xor` (main.go, lines 115-122): for `i` from `0` to
`len(a) - 1`, `result[i] = a[i] ^ b[i]`. -/
def xor (a b : List Int) : Option (List Int) :=
  let n := a.length
  collect ((List.range n).map
    (fun (i : Nat) =>
      match index a (i : Int), index b (i : Int) with
      | some x, some y => some (Int.xor x y)
      | _, _ => none))

/-- The function `sBoxLookup` (main.go, lines 125-129). -/
def sBoxLookup (input : List Int) (sBox : List (List Int)) : Option (List Int) := do
  let i0 ← index input 0
  let i3 ← index input 3
  let row := wrapInt (wrapInt (i0 * 2) + i3)
  let i1 ← index input 1
  let i2 ← index input 2
  let col := wrapInt (wrapInt (i1 * 2) + i2)
  let r ← index sBox row
  let e ← index r col
  pure [Int.land (Int.shiftRight e 1) 1, Int.land e 1]

/-- The function `generateKeys` (main.go, lines 132-149). -/
def generateKeys (key : List Int) : Option (List Int × List Int) := do
  let p10Key ← permute key p10
  let left ← sliceTo p10Key 5
  let right ← sliceFrom p10Key 5
  let left ← leftShift left 1
  let right ← leftShift right 1
  let k1 ← permute (left ++ right) p8
  let left ← leftShift left 2
  let right ← leftShift right 2
  let k2 ← permute (left ++ right) p8
  pure (k1, k2)

/-- The function `encrypt` (main.go, lines 152-171). -/
def encrypt (plaintext key : List Int) : Option (List Int) := do
  let permutedPlaintext ← permute plaintext ip
  let left ← sliceTo permutedPlaintext 4
  let right ← sliceFrom permutedPlaintext 4
  let expanded ← permute right ep
  let xored ← xor expanded key
  let x03 ← sliceTo xored 4
  let s0 ← sBoxLookup x03 sBox0
  let x47 ← sliceFrom xored 4
  let s1 ← sBoxLookup x47 sBox1
  let sBoxOutput := s0 ++ s1
  let permuted ← permute sBoxOutput p4
  let newRight ← xor permuted left
  let ciphertext ← permute (newRight ++ right) ipInverse
  pure ciphertext

/-- The cipher pipeline of `main` (main.go, lines 191-198) on already parsed
bits: the round keys, and the block after a round under K1 and a round
under K2. -/
def run (keyBits plaintextBits : List Int) :
    Option (List Int × List Int × List Int) := do
  let (k1, k2) ← generateKeys keyBits
  let ciphertext ← encrypt plaintextBits k1
  let ciphertext ← encrypt ciphertext k2
  pure (k1, k2, ciphertext)

/-- The key schedule in the words of the specification (section 4.5, step 5,
"cumulative rotate of 3 from the P10 output"): K1 from the halves of the P10
output rotated by 1, K2 from the same halves rotated by 3.  It is compared
with `generateKeys`, which rotates the already rotated halves by 2. -/
def generateKeysCumulative (key : List Int) : Option (List Int × List Int) := do
  let p10Key ← permute key p10
  let l ← sliceTo p10Key 5
  let r ← sliceFrom p10Key 5
  let l1 ← leftShift l 1
  let r1 ← leftShift r 1
  let k1 ← permute (l1 ++ r1) p8
  let l3 ← leftShift l 3
  let r3 ← leftShift r 3
  let k2 ← permute (l3 ++ r3) p8
  pure (k1, k2)

/-- A bit: the integer 0 or the integer 1. -/
def IsBit (x : Int) : Prop := x = 0 ∨ x = 1

instance (x : Int) : Decidable (IsBit x) := by unfold IsBit; infer_instance

/-- A bit vector: every element is a bit. -/
def IsBits (v : List Int) : Prop := ∀ x ∈ v, IsBit x

instance (v : List Int) : Decidable (IsBits v) := by unfold IsBits; infer_instance


/-! ## Lemmas on the primitives -/

theorem collect_cons_some {α : Type} (x : α) (rest : List (Option α)) :
    collect (some x :: rest) = (collect rest).map (fun out => x :: out) := by
  cases h : collect rest <;> simp [collect, h]

theorem collect_eq_some_iff {α : Type} (l : List (Option α)) (out : List α) :
    collect l = some out ↔ l = out.map some := by
  induction l generalizing out with
  | nil => cases out <;> simp [collect]
  | cons o rest ih =>
    cases o with
    | none => cases out <;> simp [collect]
    | some x =>
      rw [collect_cons_some]
      cases hc : collect rest with
      | none =>
        cases out with
        | nil => simp
        | cons y ys =>
          have := (ih ys).not.mp (by simp [hc])
          simp [this]
      | some r =>
        have hr := (ih r).mp hc
        cases out with
        | nil => simp
        | cons y ys =>
          simp only [Option.map_some', Option.some.injEq, List.cons.injEq, List.map_cons]
          constructor
          · rintro ⟨rfl, rfl⟩
            exact ⟨rfl, hr⟩
          · rintro ⟨rfl, h2⟩
            refine ⟨rfl, ?_⟩
            have := (ih ys).mpr h2
            rw [hc] at this
            exact Option.some.inj this

theorem collect_eq_none_iff {α : Type} (l : List (Option α)) :
    collect l = none ↔ none ∈ l := by
  induction l with
  | nil => simp [collect]
  | cons o rest ih =>
    cases o with
    | none => simp [collect]
    | some x =>
      rw [collect_cons_some]
      cases hc : collect rest with
      | none => simpa [hc] using ih
      | some r =>
        have : none ∉ rest := fun h => by simpa [hc] using ih.mpr h
        simp [this]

theorem collect_length {α : Type} (l : List (Option α)) (out : List α)
    (h : collect l = some out) : out.length = l.length := by
  rw [(collect_eq_some_iff l out).mp h, List.length_map]

theorem index_natCast {α : Type} (s : List α) (i : Nat) : index s (i : Int) = s[i]? := by
  simp [index]

theorem index_eq_none_iff {α : Type} (s : List α) (i : Int) :
    index s i = none ↔ i < 0 ∨ (s.length : Int) ≤ i := by
  unfold index
  split
  · rename_i h
    rw [List.getElem?_eq_none_iff]
    omega
  · rename_i h
    simp only [true_iff]
    omega

theorem index_of_nonneg {α : Type} (s : List α) (i : Int) (h0 : 0 ≤ i) :
    index s i = s[i.toNat]? := by
  simp [index, h0]

theorem length_eq_eight {α : Type} (v : List α) (h : v.length = 8) :
    ∃ a b c d e f g k, v = [a, b, c, d, e, f, g, k] := by
  obtain _ | ⟨a, _ | ⟨b, _ | ⟨c, _ | ⟨d, _ | ⟨e, _ | ⟨f, _ | ⟨g, _ | ⟨k, _ | ⟨l, v⟩⟩⟩⟩⟩⟩⟩⟩⟩ := v <;>
    simp at h
  exact ⟨a, b, c, d, e, f, g, k, rfl⟩

theorem length_eq_ten {α : Type} (v : List α) (h : v.length = 10) :
    ∃ a0 a1 a2 a3 a4 a5 a6 a7 a8 a9, v = [a0, a1, a2, a3, a4, a5, a6, a7, a8, a9] := by
  obtain _ | ⟨a0, _ | ⟨a1, v⟩⟩ := v
  · simp at h
  · simp at h
  · obtain ⟨a, b, c, d, e, f, g, k, rfl⟩ := length_eq_eight v (by simpa using h)
    exact ⟨a0, a1, a, b, c, d, e, f, g, k, rfl⟩

theorem leftShift_five_one (a b c d e : Int) :
    leftShift [a, b, c, d, e] 1 = some [b, c, d, e, a] := by
  simp only [leftShift, List.length_cons, List.length_nil]
  rfl

theorem leftShift_five_two (a b c d e : Int) :
    leftShift [a, b, c, d, e] 2 = some [c, d, e, a, b] := by
  simp only [leftShift, List.length_cons, List.length_nil]
  rfl

/-- The round keys as explicit selections of master-key bits. -/
theorem generateKeys_ten (a0 a1 a2 a3 a4 a5 a6 a7 a8 a9 : Int) :
    generateKeys [a0, a1, a2, a3, a4, a5, a6, a7, a8, a9] =
      some ([a0, a6, a8, a3, a7, a2, a9, a5], [a7, a2, a5, a4, a9, a1, a8, a0]) := by
  have h1 : permute [a0, a1, a2, a3, a4, a5, a6, a7, a8, a9] p10 =
      some [a2, a4, a1, a6, a3, a9, a0, a8, a7, a5] := rfl
  have h2 : sliceTo [a2, a4, a1, a6, a3, a9, a0, a8, a7, a5] 5 = some [a2, a4, a1, a6, a3] := rfl
  have h3 : sliceFrom [a2, a4, a1, a6, a3, a9, a0, a8, a7, a5] 5 = some [a9, a0, a8, a7, a5] := rfl
  have h4 : permute ([a4, a1, a6, a3, a2] ++ [a0, a8, a7, a5, a9]) p8 =
      some [a0, a6, a8, a3, a7, a2, a9, a5] := rfl
  have h5 : permute ([a6, a3, a2, a4, a1] ++ [a7, a5, a9, a0, a8]) p8 =
      some [a7, a2, a5, a4, a9, a1, a8, a0] := rfl
  simp only [generateKeys, Option.bind_eq_bind, Option.pure_def]
  rw [h1, Option.some_bind, h2, Option.some_bind, h3, Option.some_bind,
    leftShift_five_one, Option.some_bind, leftShift_five_one, Option.some_bind,
    h4, Option.some_bind, leftShift_five_two, Option.some_bind,
    leftShift_five_two, Option.some_bind, h5, Option.some_bind]

theorem getElem?_eq_some_getD (l : List Int) (n : Nat) (h : n < l.length) :
    l[n]? = some (l.getD n 0) := by
  simp [List.getD, List.getElem?_eq_getElem h]

theorem wrapInt_of_range (x : Int) (h0 : -9223372036854775808 ≤ x)
    (h1 : x < 9223372036854775808) : wrapInt x = x := by
  unfold wrapInt
  omega

/-- Without overflow in `i + shift`, `leftShift` is the rotation of the list. -/
theorem leftShift_eq_rotate (input : List Int) (s : Nat)
    (h : input.length + s ≤ 9223372036854775808) :
    leftShift input (s : Int) = some (input.rotate s) := by
  unfold leftShift
  simp only []
  rw [collect_eq_some_iff]
  apply List.ext_getElem?
  intro i
  rw [List.getElem?_map, List.getElem?_map]
  by_cases hi : i < input.length
  · have hr : i < (input.rotate s).length := by rw [List.length_rotate]; exact hi
    rw [List.getElem?_range hi, List.getElem?_eq_getElem hr]
    simp only [Option.map_some']
    apply congrArg some
    have hw : wrapInt ((i : Int) + (s : Int)) = ((i + s : Nat) : Int) := by
      rw [wrapInt_of_range] <;> omega
    rw [hw, ← Int.ofNat_tmod, index_natCast, ← List.getElem?_rotate hi,
      List.getElem?_eq_getElem hr]
  · have h1 : (List.range input.length)[i]? = none := by
      rw [List.getElem?_eq_none_iff, List.length_range]; omega
    have h2 : (input.rotate s)[i]? = none := by
      rw [List.getElem?_eq_none_iff, List.length_rotate]; omega
    rw [h1, h2]
    rfl

/-- With `b` at least as long as `a`, `xor` is the pointwise `^` of `a` with
the leading elements of `b`. -/
theorem xor_eq_zipWith (a b : List Int) (h : a.length ≤ b.length) :
    xor a b = some (List.zipWith Int.xor a b) := by
  unfold xor
  simp only []
  rw [collect_eq_some_iff]
  apply List.ext_getElem?
  intro i
  rw [List.getElem?_map, List.getElem?_map, List.getElem?_zipWith]
  by_cases hi : i < a.length
  · have hb : i < b.length := by omega
    rw [List.getElem?_range hi]
    simp only [Option.map_some']
    rw [index_natCast, index_natCast, List.getElem?_eq_getElem hi,
      List.getElem?_eq_getElem hb]
    rfl
  · have h1 : (List.range a.length)[i]? = none := by
      rw [List.getElem?_eq_none_iff, List.length_range]; omega
    have h2 : a[i]? = none := by
      rw [List.getElem?_eq_none_iff]; omega
    rw [h1, h2]
    rfl

/-- With `b` shorter than `a`, `xor` panics at `b[len(b)]`. -/
theorem xor_eq_none (a b : List Int) (h : b.length < a.length) : xor a b = none := by
  unfold xor
  simp only []
  rw [collect_eq_none_iff, List.mem_map]
  refine ⟨b.length, List.mem_range.mpr h, ?_⟩
  have hb : index b (b.length : Int) = none := by
    rw [index_natCast, List.getElem?_eq_none_iff]
  rw [hb]
  cases index a (b.length : Int) <;> rfl

theorem isBit_xor (x y : Int) (hx : IsBit x) (hy : IsBit y) : IsBit (Int.xor x y) := by
  rcases hx with rfl | rfl <;> rcases hy with rfl | rfl <;> decide

theorem xor_xor_bit (x y : Int) (hx : IsBit x) (hy : IsBit y) :
    Int.xor x (Int.xor x y) = y := by
  rcases hx with rfl | rfl <;> rcases hy with rfl | rfl <;> decide

theorem zipWith_xor_xor (a b : List Int) (h : a.length = b.length)
    (ha : IsBits a) (hb : IsBits b) :
    List.zipWith Int.xor a (List.zipWith Int.xor a b) = b := by
  induction a generalizing b with
  | nil =>
    cases b with
    | nil => rfl
    | cons y ys => simp at h
  | cons x xs ih =>
    cases b with
    | nil => simp at h
    | cons y ys =>
      simp only [List.zipWith_cons_cons, List.cons.injEq]
      refine ⟨xor_xor_bit x y (ha x (by simp)) (hb y (by simp)), ?_⟩
      exact ih ys (by simpa using h) (fun z hz => ha z (by simp [hz]))
        (fun z hz => hb z (by simp [hz]))

theorem zipWith_take_right (a b : List Int) :
    List.zipWith Int.xor a (b.take a.length) = List.zipWith Int.xor a b := by
  induction a generalizing b with
  | nil => simp
  | cons x xs ih =>
    cases b with
    | nil => simp
    | cons y ys => simp [ih]

theorem sBoxLookup_sBox0_bits (x0 x1 x2 x3 : Int) (h0 : IsBit x0) (h1 : IsBit x1)
    (h2 : IsBit x2) (h3 : IsBit x3) :
    ∃ hi lo, sBoxLookup [x0, x1, x2, x3] sBox0 = some [hi, lo] ∧ IsBit hi ∧ IsBit lo := by
  rcases h0 with rfl | rfl <;> rcases h1 with rfl | rfl <;> rcases h2 with rfl | rfl <;>
    rcases h3 with rfl | rfl <;> exact ⟨_, _, rfl, by decide, by decide⟩

theorem sBoxLookup_sBox1_bits (x0 x1 x2 x3 : Int) (h0 : IsBit x0) (h1 : IsBit x1)
    (h2 : IsBit x2) (h3 : IsBit x3) :
    ∃ hi lo, sBoxLookup [x0, x1, x2, x3] sBox1 = some [hi, lo] ∧ IsBit hi ∧ IsBit lo := by
  rcases h0 with rfl | rfl <;> rcases h1 with rfl | rfl <;> rcases h2 with rfl | rfl <;>
    rcases h3 with rfl | rfl <;> exact ⟨_, _, rfl, by decide, by decide⟩

theorem leftShift_five_three (a b c d e : Int) :
    leftShift [a, b, c, d, e] 3 = some [d, e, a, b, c] := by
  simp only [leftShift, List.length_cons, List.length_nil]
  rfl

/-- An entry of the table outside `1..len(input)` makes `permute` panic. -/
theorem permute_eq_none_of_entry (input table : List Int) (v : Int) (hv : v ∈ table)
    (hbad : v < 1 ∨ (input.length : Int) < v) : permute input table = none := by
  unfold permute
  rw [collect_eq_none_iff, List.mem_map]
  refine ⟨v, hv, ?_⟩
  rw [index_eq_none_iff]
  omega

/-- The round keys of a key with at least ten elements: the elements after the
tenth are never read. -/
theorem generateKeys_ten_append (a0 a1 a2 a3 a4 a5 a6 a7 a8 a9 : Int) (rest : List Int) :
    generateKeys (a0 :: a1 :: a2 :: a3 :: a4 :: a5 :: a6 :: a7 :: a8 :: a9 :: rest) =
      some ([a0, a6, a8, a3, a7, a2, a9, a5], [a7, a2, a5, a4, a9, a1, a8, a0]) := by
  have h1 : permute (a0 :: a1 :: a2 :: a3 :: a4 :: a5 :: a6 :: a7 :: a8 :: a9 :: rest) p10 =
      some [a2, a4, a1, a6, a3, a9, a0, a8, a7, a5] := by
    simp [permute, p10, index, collect]
  have h2 : sliceTo [a2, a4, a1, a6, a3, a9, a0, a8, a7, a5] 5 = some [a2, a4, a1, a6, a3] := rfl
  have h3 : sliceFrom [a2, a4, a1, a6, a3, a9, a0, a8, a7, a5] 5 = some [a9, a0, a8, a7, a5] := rfl
  have h4 : permute ([a4, a1, a6, a3, a2] ++ [a0, a8, a7, a5, a9]) p8 =
      some [a0, a6, a8, a3, a7, a2, a9, a5] := rfl
  have h5 : permute ([a6, a3, a2, a4, a1] ++ [a7, a5, a9, a0, a8]) p8 =
      some [a7, a2, a5, a4, a9, a1, a8, a0] := rfl
  simp only [generateKeys, Option.bind_eq_bind, Option.pure_def]
  rw [h1, Option.some_bind, h2, Option.some_bind, h3, Option.some_bind,
    leftShift_five_one, Option.some_bind, leftShift_five_one, Option.some_bind,
    h4, Option.some_bind, leftShift_five_two, Option.some_bind,
    leftShift_five_two, Option.some_bind, h5, Option.some_bind]

/-- The key schedule by cumulative rotation, as explicit selections of
master-key elements. -/
theorem generateKeysCumulative_ten (a0 a1 a2 a3 a4 a5 a6 a7 a8 a9 : Int) :
    generateKeysCumulative [a0, a1, a2, a3, a4, a5, a6, a7, a8, a9] =
      some ([a0, a6, a8, a3, a7, a2, a9, a5], [a7, a2, a5, a4, a9, a1, a8, a0]) := by
  have h1 : permute [a0, a1, a2, a3, a4, a5, a6, a7, a8, a9] p10 =
      some [a2, a4, a1, a6, a3, a9, a0, a8, a7, a5] := rfl
  have h2 : sliceTo [a2, a4, a1, a6, a3, a9, a0, a8, a7, a5] 5 = some [a2, a4, a1, a6, a3] := rfl
  have h3 : sliceFrom [a2, a4, a1, a6, a3, a9, a0, a8, a7, a5] 5 = some [a9, a0, a8, a7, a5] := rfl
  have h4 : permute ([a4, a1, a6, a3, a2] ++ [a0, a8, a7, a5, a9]) p8 =
      some [a0, a6, a8, a3, a7, a2, a9, a5] := rfl
  have h5 : permute ([a6, a3, a2, a4, a1] ++ [a7, a5, a9, a0, a8]) p8 =
      some [a7, a2, a5, a4, a9, a1, a8, a0] := rfl
  simp only [generateKeysCumulative, Option.bind_eq_bind, Option.pure_def]
  rw [h1, Option.some_bind, h2, Option.some_bind, h3, Option.some_bind,
    leftShift_five_one, Option.some_bind, leftShift_five_one, Option.some_bind,
    h4, Option.some_bind, leftShift_five_three, Option.some_bind,
    leftShift_five_three, Option.some_bind, h5, Option.some_bind]

/-- One round on an eight-element block under an eight-element key, given the
two S-box results: the left half of the IP-permuted block is xored with the
P4-permuted S-box output, the right half stays, and IP-inverse is applied. -/
theorem encrypt_eight (b0 b1 b2 b3 b4 b5 b6 b7 k0 k1 k2 k3 k4 k5 k6 k7 t0 t1 t2 t3 : Int)
    (h8 : sBoxLookup [Int.xor b6 k0, Int.xor b3 k1, Int.xor b7 k2, Int.xor b4 k3] sBox0 =
      some [t0, t1])
    (h9 : sBoxLookup [Int.xor b7 k4, Int.xor b4 k5, Int.xor b6 k6, Int.xor b3 k7] sBox1 =
      some [t2, t3]) :
    encrypt [b0, b1, b2, b3, b4, b5, b6, b7] [k0, k1, k2, k3, k4, k5, k6, k7] =
      some [Int.xor t0 b0, Int.xor t1 b1, Int.xor t2 b2, b3, b4, Int.xor t3 b5, b6, b7] := by
  have h1 : permute [b0, b1, b2, b3, b4, b5, b6, b7] ip =
      some [b1, b5, b2, b0, b3, b7, b4, b6] := rfl
  have h2 : sliceTo [b1, b5, b2, b0, b3, b7, b4, b6] 4 = some [b1, b5, b2, b0] := rfl
  have h3 : sliceFrom [b1, b5, b2, b0, b3, b7, b4, b6] 4 = some [b3, b7, b4, b6] := rfl
  have h4 : permute [b3, b7, b4, b6] ep = some [b6, b3, b7, b4, b7, b4, b6, b3] := rfl
  have h5 : xor [b6, b3, b7, b4, b7, b4, b6, b3] [k0, k1, k2, k3, k4, k5, k6, k7] =
      some [Int.xor b6 k0, Int.xor b3 k1, Int.xor b7 k2, Int.xor b4 k3,
        Int.xor b7 k4, Int.xor b4 k5, Int.xor b6 k6, Int.xor b3 k7] :=
    xor_eq_zipWith _ _ (le_refl 8)
  have h6 : sliceTo [Int.xor b6 k0, Int.xor b3 k1, Int.xor b7 k2, Int.xor b4 k3,
        Int.xor b7 k4, Int.xor b4 k5, Int.xor b6 k6, Int.xor b3 k7] 4 =
      some [Int.xor b6 k0, Int.xor b3 k1, Int.xor b7 k2, Int.xor b4 k3] := rfl
  have h7 : sliceFrom [Int.xor b6 k0, Int.xor b3 k1, Int.xor b7 k2, Int.xor b4 k3,
        Int.xor b7 k4, Int.xor b4 k5, Int.xor b6 k6, Int.xor b3 k7] 4 =
      some [Int.xor b7 k4, Int.xor b4 k5, Int.xor b6 k6, Int.xor b3 k7] := rfl
  have h10 : permute ([t0, t1] ++ [t2, t3]) p4 = some [t1, t3, t2, t0] := rfl
  have h11 : xor [t1, t3, t2, t0] [b1, b5, b2, b0] =
      some [Int.xor t1 b1, Int.xor t3 b5, Int.xor t2 b2, Int.xor t0 b0] :=
    xor_eq_zipWith _ _ (le_refl 4)
  have h12 : permute ([Int.xor t1 b1, Int.xor t3 b5, Int.xor t2 b2, Int.xor t0 b0] ++
        [b3, b7, b4, b6]) ipInverse =
      some [Int.xor t0 b0, Int.xor t1 b1, Int.xor t2 b2, b3, b4, Int.xor t3 b5, b6, b7] := rfl
  simp only [encrypt, Option.bind_eq_bind, Option.pure_def]
  rw [h1, Option.some_bind, h2, Option.some_bind, h3, Option.some_bind, h4,
    Option.some_bind, h5, Option.some_bind, h6, Option.some_bind, h8, Option.some_bind,
    h7, Option.some_bind, h9, Option.some_bind, h10, Option.some_bind, h11,
    Option.some_bind, h12, Option.some_bind]

theorem xor_left_comm_bit (x y z : Int) (hx : IsBit x) (hy : IsBit y) (hz : IsBit z) :
    Int.xor x (Int.xor y z) = Int.xor y (Int.xor x z) := by
  rcases hx with rfl | rfl <;> rcases hy with rfl | rfl <;> rcases hz with rfl | rfl <;>
    decide

theorem isBits_eight (b0 b1 b2 b3 b4 b5 b6 b7 : Int)
    (h : IsBits [b0, b1, b2, b3, b4, b5, b6, b7]) :
    IsBit b0 ∧ IsBit b1 ∧ IsBit b2 ∧ IsBit b3 ∧ IsBit b4 ∧ IsBit b5 ∧ IsBit b6 ∧ IsBit b7 :=
  ⟨h b0 (by simp), h b1 (by simp), h b2 (by simp), h b3 (by simp), h b4 (by simp),
    h b5 (by simp), h b6 (by simp), h b7 (by simp)⟩

theorem isBits_eight_of (b0 b1 b2 b3 b4 b5 b6 b7 : Int) (h0 : IsBit b0) (h1 : IsBit b1)
    (h2 : IsBit b2) (h3 : IsBit b3) (h4 : IsBit b4) (h5 : IsBit b5) (h6 : IsBit b6)
    (h7 : IsBit b7) : IsBits [b0, b1, b2, b3, b4, b5, b6, b7] := by
  intro x hx
  simp only [List.mem_cons, List.mem_nil_iff, or_false] at hx
  rcases hx with rfl | rfl | rfl | rfl | rfl | rfl | rfl | rfl <;> assumption

theorem length_ge_ten {α : Type} (v : List α) (h : 10 ≤ v.length) :
    ∃ a0 a1 a2 a3 a4 a5 a6 a7 a8 a9 rest,
      v = a0 :: a1 :: a2 :: a3 :: a4 :: a5 :: a6 :: a7 :: a8 :: a9 :: rest := by
  obtain ⟨a0, a1, a2, a3, a4, a5, a6, a7, a8, a9, h10⟩ :=
    length_eq_ten (v.take 10) (by rw [List.length_take]; omega)
  refine ⟨a0, a1, a2, a3, a4, a5, a6, a7, a8, a9, v.drop 10, ?_⟩
  have := List.take_append_drop 10 v
  rw [h10] at this
  exact this.symm

theorem isBit_one_sub (x : Int) (h : IsBit x) : IsBit (1 - x) := by
  rcases h with rfl | rfl <;> decide

theorem isBits_set (v : List Int) (i : Nat) (y : Int) (hv : IsBits v) (hy : IsBit y) :
    IsBits (v.set i y) := by
  intro x hx
  rcases List.mem_or_eq_of_mem_set hx with h | h
  · exact hv x h
  · rw [h]; exact hy

theorem isBit_getD (v : List Int) (i : Nat) (hv : IsBits v) : IsBit (v.getD i 0) := by
  by_cases hi : i < v.length
  · have : v.getD i 0 = v[i] := by simp [List.getD, List.getElem?_eq_getElem hi]
    rw [this]
    exact hv _ (List.getElem_mem hi)
  · have : v.getD i 0 = 0 := by
      simp [List.getD, List.getElem?_eq_none_iff.mpr (by omega : v.length ≤ i)]
    rw [this]
    exact Or.inl rfl

/-- Two rounds on an 8-bit block under 8-bit round keys return, and the last
four elements of the IP-permuted result are those of the IP-permuted block. -/
theorem two_rounds_right_half (p k m : List Int) (hp : p.length = 8) (hpb : IsBits p)
    (hk : k.length = 8) (hkb : IsBits k) (hm : m.length = 8) (hmb : IsBits m) :
    ∃ c pp pc, (encrypt p k).bind (fun x => encrypt x m) = some c ∧
      permute p ip = some pp ∧ permute c ip = some pc ∧ pc.drop 4 = pp.drop 4 := by
  obtain ⟨b0, b1, b2, b3, b4, b5, b6, b7, rfl⟩ := length_eq_eight p hp
  obtain ⟨k0, k1, k2, k3, k4, k5, k6, k7, rfl⟩ := length_eq_eight k hk
  obtain ⟨m0, m1, m2, m3, m4, m5, m6, m7, rfl⟩ := length_eq_eight m hm
  obtain ⟨B0, B1, B2, B3, B4, B5, B6, B7⟩ := isBits_eight _ _ _ _ _ _ _ _ hpb
  obtain ⟨K0, K1, K2, K3, K4, K5, K6, K7⟩ := isBits_eight _ _ _ _ _ _ _ _ hkb
  obtain ⟨M0, M1, M2, M3, M4, M5, M6, M7⟩ := isBits_eight _ _ _ _ _ _ _ _ hmb
  obtain ⟨t0, t1, h8, T0, T1⟩ := sBoxLookup_sBox0_bits _ _ _ _
    (isBit_xor b6 k0 B6 K0) (isBit_xor b3 k1 B3 K1) (isBit_xor b7 k2 B7 K2)
    (isBit_xor b4 k3 B4 K3)
  obtain ⟨t2, t3, h9, T2, T3⟩ := sBoxLookup_sBox1_bits _ _ _ _
    (isBit_xor b7 k4 B7 K4) (isBit_xor b4 k5 B4 K5) (isBit_xor b6 k6 B6 K6)
    (isBit_xor b3 k7 B3 K7)
  obtain ⟨u0, u1, g8, U0, U1⟩ := sBoxLookup_sBox0_bits _ _ _ _
    (isBit_xor b6 m0 B6 M0) (isBit_xor b3 m1 B3 M1) (isBit_xor b7 m2 B7 M2)
    (isBit_xor b4 m3 B4 M3)
  obtain ⟨u2, u3, g9, U2, U3⟩ := sBoxLookup_sBox1_bits _ _ _ _
    (isBit_xor b7 m4 B7 M4) (isBit_xor b4 m5 B4 M5) (isBit_xor b6 m6 B6 M6)
    (isBit_xor b3 m7 B3 M7)
  refine ⟨[Int.xor u0 (Int.xor t0 b0), Int.xor u1 (Int.xor t1 b1), Int.xor u2 (Int.xor t2 b2),
      b3, b4, Int.xor u3 (Int.xor t3 b5), b6, b7],
    [b1, b5, b2, b0, b3, b7, b4, b6],
    [Int.xor u1 (Int.xor t1 b1), Int.xor u3 (Int.xor t3 b5), Int.xor u2 (Int.xor t2 b2),
      Int.xor u0 (Int.xor t0 b0), b3, b7, b4, b6], ?_, rfl, rfl, rfl⟩
  rw [encrypt_eight b0 b1 b2 b3 b4 b5 b6 b7 k0 k1 k2 k3 k4 k5 k6 k7 t0 t1 t2 t3 h8 h9,
    Option.some_bind,
    encrypt_eight _ _ _ b3 b4 _ b6 b7 m0 m1 m2 m3 m4 m5 m6 m7 u0 u1 u2 u3 g8 g9]

/-! ## The claims -/

/-- C5: for every input list and every table whose entries all lie in
`1..len(input)`, `permute(input, table)` returns a list whose length is
`len(table)` and whose element at each position `i` is `input[table[i] - 1]`. -/
theorem permute_spec (input table : List Int)
    (h : ∀ v ∈ table, 1 ≤ v ∧ v ≤ (input.length : Int)) :
    ∃ out, permute input table = some out ∧ out.length = table.length ∧
      ∀ (i : Nat) (hi : i < table.length),
        ∃ x, out[i]? = some x ∧ input[(table[i] - 1).toNat]? = some x := by
  refine ⟨table.map (fun v => input.getD (v - 1).toNat 0), ?_, by simp, ?_⟩
  · unfold permute
    rw [collect_eq_some_iff, List.map_map]
    apply List.map_congr_left
    intro v hv
    obtain ⟨h1, h2⟩ := h v hv
    rw [index_of_nonneg input (v - 1) (by omega)]
    exact getElem?_eq_some_getD input _ (by omega)
  · intro i hi
    obtain ⟨h1, h2⟩ := h table[i] (List.getElem_mem hi)
    refine ⟨input.getD (table[i] - 1).toNat 0, ?_, getElem?_eq_some_getD input _ (by omega)⟩
    rw [List.getElem?_map, List.getElem?_eq_getElem hi]
    rfl

/-- Witness of C5 on the table P8 and a ten-element input. -/
theorem permute_spec_witness :
    ∃ out, permute [10, 11, 12, 13, 14, 15, 16, 17, 18, 19] p8 = some out ∧
      out.length = p8.length ∧
      ∀ (i : Nat) (hi : i < p8.length),
        ∃ x, out[i]? = some x ∧
          [10, 11, 12, 13, 14, 15, 16, 17, 18, 19][(p8[i] - 1).toNat]? = some x :=
  permute_spec [10, 11, 12, 13, 14, 15, 16, 17, 18, 19] p8 (by decide)

/-- C6: for every input list and every table with an entry smaller than 1 or
greater than `len(input)`, `permute(input, table)` does not return: it ends in
the runtime panic of an index out of range. -/
theorem permute_out_of_range (input table : List Int)
    (h : ∃ v ∈ table, v < 1 ∨ (input.length : Int) < v) :
    permute input table = none := by
  obtain ⟨v, hv, hbad⟩ := h
  unfold permute
  rw [collect_eq_none_iff, List.mem_map]
  refine ⟨v, hv, ?_⟩
  rw [index_eq_none_iff]
  omega

/-- Witness of C6: the entry 10 of P8 on a nine-element input. -/
theorem permute_out_of_range_witness :
    (∃ v ∈ p8, v < 1 ∨ (([0, 1, 0, 1, 0, 1, 0, 1, 0] : List Int).length : Int) < v) ∧
      permute [0, 1, 0, 1, 0, 1, 0, 1, 0] p8 = none :=
  ⟨⟨10, by decide, by decide⟩,
   permute_out_of_range [0, 1, 0, 1, 0, 1, 0, 1, 0] p8 ⟨10, by decide, by decide⟩⟩

/-- C4: for every list `v` of length 8, `permute(permute(v, ip), ipInverse)`
returns `v`. -/
theorem permute_ip_ipInverse (v : List Int) (h : v.length = 8) :
    ∃ w, permute v ip = some w ∧ permute w ipInverse = some v := by
  obtain ⟨a, b, c, d, e, f, g, k, rfl⟩ := length_eq_eight v h
  exact ⟨[b, f, c, a, d, k, e, g], rfl, rfl⟩

/-- Witness of C4 on the block 10100101. -/
theorem permute_ip_ipInverse_witness :
    ∃ w, permute [1, 0, 1, 0, 0, 1, 0, 1] ip = some w ∧
      permute w ipInverse = some [1, 0, 1, 0, 0, 1, 0, 1] :=
  permute_ip_ipInverse [1, 0, 1, 0, 0, 1, 0, 1] rfl

/-- C1: for every master key that is a list of exactly 10 bits,
`generateKeys` returns (no index leaves its input), and K1 and K2 are each a
list of exactly 8 bits. -/
theorem generateKeys_total (key : List Int) (hlen : key.length = 10) (hbits : IsBits key) :
    ∃ k1 k2, generateKeys key = some (k1, k2) ∧
      k1.length = 8 ∧ IsBits k1 ∧ k2.length = 8 ∧ IsBits k2 := by
  obtain ⟨a0, a1, a2, a3, a4, a5, a6, a7, a8, a9, rfl⟩ := length_eq_ten key hlen
  refine ⟨_, _, generateKeys_ten a0 a1 a2 a3 a4 a5 a6 a7 a8 a9, rfl, ?_, rfl, ?_⟩
  · intro x hx
    apply hbits
    simp only [List.mem_cons, List.mem_singleton] at hx ⊢
    tauto
  · intro x hx
    apply hbits
    simp only [List.mem_cons, List.mem_singleton] at hx ⊢
    tauto

/-- Witness of C1 on the master key 1010000010. -/
theorem generateKeys_total_witness :
    ∃ k1 k2, generateKeys [1, 0, 1, 0, 0, 0, 0, 0, 1, 0] = some (k1, k2) ∧
      k1.length = 8 ∧ IsBits k1 ∧ k2.length = 8 ∧ IsBits k2 :=
  generateKeys_total [1, 0, 1, 0, 0, 0, 0, 0, 1, 0] rfl (by decide)

/-- C2: for every block of exactly 8 bits and every round key of exactly 8
bits, every step of `encrypt` returns (each permutation index is in range,
each S-box lookup finds its row and column, each `xor` gets operands of equal
length), and `encrypt` returns a list of exactly 8 bits. -/
theorem encrypt_total (block key : List Int) (hb : block.length = 8) (hbb : IsBits block)
    (hk : key.length = 8) (hkb : IsBits key) :
    ∃ pp expanded xored s0 s1 permuted newRight c,
      permute block ip = some pp ∧
      permute (pp.drop 4) ep = some expanded ∧
      expanded.length = key.length ∧
      xor expanded key = some xored ∧
      sBoxLookup (xored.take 4) sBox0 = some s0 ∧
      sBoxLookup (xored.drop 4) sBox1 = some s1 ∧
      permute (s0 ++ s1) p4 = some permuted ∧
      permuted.length = (pp.take 4).length ∧
      xor permuted (pp.take 4) = some newRight ∧
      permute (newRight ++ pp.drop 4) ipInverse = some c ∧
      encrypt block key = some c ∧ c.length = 8 ∧ IsBits c := by
  obtain ⟨b0, b1, b2, b3, b4, b5, b6, b7, rfl⟩ := length_eq_eight block hb
  obtain ⟨k0, k1, k2, k3, k4, k5, k6, k7, rfl⟩ := length_eq_eight key hk
  have B0 : IsBit b0 := hbb b0 (by simp)
  have B1 : IsBit b1 := hbb b1 (by simp)
  have B2 : IsBit b2 := hbb b2 (by simp)
  have B3 : IsBit b3 := hbb b3 (by simp)
  have B4 : IsBit b4 := hbb b4 (by simp)
  have B5 : IsBit b5 := hbb b5 (by simp)
  have B6 : IsBit b6 := hbb b6 (by simp)
  have B7 : IsBit b7 := hbb b7 (by simp)
  have K0 : IsBit k0 := hkb k0 (by simp)
  have K1 : IsBit k1 := hkb k1 (by simp)
  have K2 : IsBit k2 := hkb k2 (by simp)
  have K3 : IsBit k3 := hkb k3 (by simp)
  have K4 : IsBit k4 := hkb k4 (by simp)
  have K5 : IsBit k5 := hkb k5 (by simp)
  have K6 : IsBit k6 := hkb k6 (by simp)
  have K7 : IsBit k7 := hkb k7 (by simp)
  have h1 : permute [b0, b1, b2, b3, b4, b5, b6, b7] ip =
      some [b1, b5, b2, b0, b3, b7, b4, b6] := rfl
  have h2 : sliceTo [b1, b5, b2, b0, b3, b7, b4, b6] 4 = some [b1, b5, b2, b0] := rfl
  have h3 : sliceFrom [b1, b5, b2, b0, b3, b7, b4, b6] 4 = some [b3, b7, b4, b6] := rfl
  have h4 : permute [b3, b7, b4, b6] ep = some [b6, b3, b7, b4, b7, b4, b6, b3] := rfl
  have h5 : xor [b6, b3, b7, b4, b7, b4, b6, b3] [k0, k1, k2, k3, k4, k5, k6, k7] =
      some [Int.xor b6 k0, Int.xor b3 k1, Int.xor b7 k2, Int.xor b4 k3,
        Int.xor b7 k4, Int.xor b4 k5, Int.xor b6 k6, Int.xor b3 k7] :=
    xor_eq_zipWith _ _ (le_refl 8)
  have h6 : sliceTo [Int.xor b6 k0, Int.xor b3 k1, Int.xor b7 k2, Int.xor b4 k3,
        Int.xor b7 k4, Int.xor b4 k5, Int.xor b6 k6, Int.xor b3 k7] 4 =
      some [Int.xor b6 k0, Int.xor b3 k1, Int.xor b7 k2, Int.xor b4 k3] := rfl
  have h7 : sliceFrom [Int.xor b6 k0, Int.xor b3 k1, Int.xor b7 k2, Int.xor b4 k3,
        Int.xor b7 k4, Int.xor b4 k5, Int.xor b6 k6, Int.xor b3 k7] 4 =
      some [Int.xor b7 k4, Int.xor b4 k5, Int.xor b6 k6, Int.xor b3 k7] := rfl
  obtain ⟨t0, t1, h8, T0, T1⟩ := sBoxLookup_sBox0_bits _ _ _ _
    (isBit_xor b6 k0 B6 K0) (isBit_xor b3 k1 B3 K1) (isBit_xor b7 k2 B7 K2)
    (isBit_xor b4 k3 B4 K3)
  obtain ⟨t2, t3, h9, T2, T3⟩ := sBoxLookup_sBox1_bits _ _ _ _
    (isBit_xor b7 k4 B7 K4) (isBit_xor b4 k5 B4 K5) (isBit_xor b6 k6 B6 K6)
    (isBit_xor b3 k7 B3 K7)
  have h10 : permute ([t0, t1] ++ [t2, t3]) p4 = some [t1, t3, t2, t0] := rfl
  have h11 : xor [t1, t3, t2, t0] [b1, b5, b2, b0] =
      some [Int.xor t1 b1, Int.xor t3 b5, Int.xor t2 b2, Int.xor t0 b0] :=
    xor_eq_zipWith _ _ (le_refl 4)
  have h12 : permute ([Int.xor t1 b1, Int.xor t3 b5, Int.xor t2 b2, Int.xor t0 b0] ++
        [b3, b7, b4, b6]) ipInverse =
      some [Int.xor t0 b0, Int.xor t1 b1, Int.xor t2 b2, b3, b4, Int.xor t3 b5, b6, b7] := rfl
  refine ⟨_, _, _, _, _, _, _, _, h1, h4, rfl, h5, h8, h9, h10, rfl, h11, h12, ?_, rfl, ?_⟩
  · simp only [encrypt, Option.bind_eq_bind, Option.pure_def]
    rw [h1, Option.some_bind, h2, Option.some_bind, h3, Option.some_bind, h4,
      Option.some_bind, h5, Option.some_bind, h6, Option.some_bind, h8, Option.some_bind,
      h7, Option.some_bind, h9, Option.some_bind, h10, Option.some_bind, h11,
      Option.some_bind, h12, Option.some_bind]
  · intro x hx
    simp only [List.mem_cons, List.mem_nil_iff, or_false] at hx
    rcases hx with rfl | rfl | rfl | rfl | rfl | rfl | rfl | rfl
    · exact isBit_xor t0 b0 T0 B0
    · exact isBit_xor t1 b1 T1 B1
    · exact isBit_xor t2 b2 T2 B2
    · exact B3
    · exact B4
    · exact isBit_xor t3 b5 T3 B5
    · exact B6
    · exact B7

/-- Witness of C2 on the block 10100101 under the round key 10100100. -/
theorem encrypt_total_witness :
    ∃ pp expanded xored s0 s1 permuted newRight c,
      permute [1, 0, 1, 0, 0, 1, 0, 1] ip = some pp ∧
      permute (pp.drop 4) ep = some expanded ∧
      expanded.length = ([1, 0, 1, 0, 0, 1, 0, 0] : List Int).length ∧
      xor expanded [1, 0, 1, 0, 0, 1, 0, 0] = some xored ∧
      sBoxLookup (xored.take 4) sBox0 = some s0 ∧
      sBoxLookup (xored.drop 4) sBox1 = some s1 ∧
      permute (s0 ++ s1) p4 = some permuted ∧
      permuted.length = (pp.take 4).length ∧
      xor permuted (pp.take 4) = some newRight ∧
      permute (newRight ++ pp.drop 4) ipInverse = some c ∧
      encrypt [1, 0, 1, 0, 0, 1, 0, 1] [1, 0, 1, 0, 0, 1, 0, 0] = some c ∧
      c.length = 8 ∧ IsBits c :=
  encrypt_total [1, 0, 1, 0, 0, 1, 0, 1] [1, 0, 1, 0, 0, 1, 0, 0] rfl (by decide) rfl
    (by decide)

/-- C3: for the master key 1010000010 and the plaintext 10100101,
`generateKeys` returns K1 = 10100100 and K2 = 01000011, and the two rounds
`encrypt(encrypt(plaintext, K1), K2)` return 00100101, as does the pipeline
of `main`. -/
theorem reference_vector :
    generateKeys [1, 0, 1, 0, 0, 0, 0, 0, 1, 0] =
        some ([1, 0, 1, 0, 0, 1, 0, 0], [0, 1, 0, 0, 0, 0, 1, 1]) ∧
      ((encrypt [1, 0, 1, 0, 0, 1, 0, 1] [1, 0, 1, 0, 0, 1, 0, 0]).bind
          (fun c => encrypt c [0, 1, 0, 0, 0, 0, 1, 1])) = some [0, 0, 1, 0, 0, 1, 0, 1] ∧
      run [1, 0, 1, 0, 0, 0, 0, 0, 1, 0] [1, 0, 1, 0, 0, 1, 0, 1] =
        some ([1, 0, 1, 0, 0, 1, 0, 0], [0, 1, 0, 0, 0, 0, 1, 1], [0, 0, 1, 0, 0, 1, 0, 1]) := by
  decide

/-- C7, as stated, fails: on a three-element list and the non-negative shift
`2^63 - 1`, the sum `1 + shift` wraps to `-2^63`, the remainder is `-2`, and
`leftShift` panics. -/
theorem leftShift_overflow_counterexample :
    (0 : Int) ≤ 9223372036854775807 ∧ leftShift [1, 0, 0] 9223372036854775807 = none := by
  decide

/-- C7, amended: for every list `input` and every non-negative `shift` with
`len(input) + shift ≤ 2^63` (no `i + shift` overflows), `leftShift` returns a
list of the length of `input` whose element at each position `i` is
`input[(i + shift) mod len(input)]`; the empty list maps to the empty list. -/
theorem leftShift_spec (input : List Int) (shift : Int) (h0 : 0 ≤ shift)
    (hov : (input.length : Int) + shift ≤ 9223372036854775808) :
    ∃ out, leftShift input shift = some out ∧ out.length = input.length ∧
      (input = [] → out = []) ∧
      ∀ (i : Nat), i < input.length →
        ∃ x, out[i]? = some x ∧
          input[(((i : Int) + shift) % (input.length : Int)).toNat]? = some x := by
  obtain ⟨s, rfl⟩ := Int.eq_ofNat_of_zero_le h0
  refine ⟨input.rotate s, leftShift_eq_rotate input s (by omega), List.length_rotate input s,
    ?_, ?_⟩
  · rintro rfl
    rfl
  · intro i hi
    have hr : i < (input.rotate s).length := by rw [List.length_rotate]; exact hi
    refine ⟨(input.rotate s)[i], List.getElem?_eq_getElem hr, ?_⟩
    have hc : (((i : Int) + (s : Int)) % (input.length : Int)).toNat =
        (i + s) % input.length := by
      rw [← Int.natCast_add, ← Int.natCast_mod, Int.toNat_natCast]
    rw [hc, ← List.getElem?_rotate hi, List.getElem?_eq_getElem hr]

/-- Witness of the amended C7: a rotation by 3 of a five-element list. -/
theorem leftShift_spec_witness :
    ∃ out, leftShift [1, 0, 0, 1, 1] 3 = some out ∧
      out.length = ([1, 0, 0, 1, 1] : List Int).length ∧
      (([1, 0, 0, 1, 1] : List Int) = [] → out = []) ∧
      ∀ (i : Nat), i < ([1, 0, 0, 1, 1] : List Int).length →
        ∃ x, out[i]? = some x ∧
          ([1, 0, 0, 1, 1] : List Int)[(((i : Int) + 3) %
            (([1, 0, 0, 1, 1] : List Int).length : Int)).toNat]? = some x :=
  leftShift_spec [1, 0, 0, 1, 1] 3 (by decide) (by decide)

/-- C8, as stated, fails: with `m = 2^62` and `n = 2^62 - 1` both shifts of a
three-element list return, while the single shift by `m + n = 2^63 - 1`
panics. -/
theorem leftShift_compose_counterexample :
    (0 : Int) ≤ 4611686018427387904 ∧ (0 : Int) ≤ 4611686018427387903 ∧
      ((leftShift [1, 0, 0] 4611686018427387904).bind
          (fun w => leftShift w 4611686018427387903)) = some [0, 0, 1] ∧
      leftShift [1, 0, 0] (4611686018427387904 + 4611686018427387903) = none := by
  decide

/-- C8, amended: for every list `v` and all non-negative `m` and `n` with
`len(v) + m + n ≤ 2^63`, `leftShift(leftShift(v, m), n)` and
`leftShift(v, m + n)` both return, and return the same list. -/
theorem leftShift_compose (v : List Int) (m n : Int) (hm : 0 ≤ m) (hn : 0 ≤ n)
    (hov : (v.length : Int) + m + n ≤ 9223372036854775808) :
    ∃ w out, leftShift v m = some w ∧ leftShift w n = some out ∧
      leftShift v (m + n) = some out := by
  obtain ⟨a, rfl⟩ := Int.eq_ofNat_of_zero_le hm
  obtain ⟨b, rfl⟩ := Int.eq_ofNat_of_zero_le hn
  refine ⟨v.rotate a, (v.rotate a).rotate b, leftShift_eq_rotate v a (by omega), ?_, ?_⟩
  · exact leftShift_eq_rotate (v.rotate a) b (by rw [List.length_rotate]; omega)
  · rw [List.rotate_rotate, ← Int.natCast_add]
    exact leftShift_eq_rotate v (a + b) (by omega)

/-- Witness of the amended C8: the two rotations of the key schedule. -/
theorem leftShift_compose_witness :
    ∃ w out, leftShift [1, 0, 0, 1, 1] 1 = some w ∧ leftShift w 2 = some out ∧
      leftShift [1, 0, 0, 1, 1] (1 + 2) = some out :=
  leftShift_compose [1, 0, 0, 1, 1] 1 2 (by decide) (by decide) (by decide)

/-- C9: for all bit vectors `a` and `b` of equal length, `xor(a, b)` returns
and `xor(a, xor(a, b))` returns `b`. -/
theorem xor_involution (a b : List Int) (hlen : a.length = b.length)
    (ha : IsBits a) (hb : IsBits b) :
    ∃ c, xor a b = some c ∧ xor a c = some b := by
  refine ⟨List.zipWith Int.xor a b, xor_eq_zipWith a b (by omega), ?_⟩
  rw [xor_eq_zipWith a _ (by rw [List.length_zipWith]; omega),
    zipWith_xor_xor a b hlen ha hb]

/-- Witness of C9 on two four-bit vectors. -/
theorem xor_involution_witness :
    ∃ c, xor [1, 1, 0, 0] [1, 0, 1, 0] = some c ∧ xor [1, 1, 0, 0] c = some [1, 0, 1, 0] :=
  xor_involution [1, 1, 0, 0] [1, 0, 1, 0] rfl (by decide) (by decide)

/-- C10, as stated, fails: with `b` longer than `a`, `xor` returns the
pointwise result on the first `len(a)` positions and ignores the rest of `b`. -/
theorem xor_truncates_counterexample :
    ([1, 0] : List Int).length ≠ ([1, 1, 1] : List Int).length ∧
      xor [1, 0] [1, 1, 1] = some [0, 1] := by
  decide

/-- C10, amended: for all lists `a` and `b` of different lengths, either `b`
is the shorter one and `xor(a, b)` does not return (index out of range), or
`b` is the longer one and `xor(a, b)` returns the `len(a)` elements it returns
on `a` and the first `len(a)` elements of `b`. -/
theorem xor_length_mismatch (a b : List Int) (h : a.length ≠ b.length) :
    (b.length < a.length ∧ xor a b = none) ∨
      (a.length < b.length ∧
        ∃ c, xor a b = some c ∧ c.length = a.length ∧ xor a (b.take a.length) = some c) := by
  rcases Nat.lt_or_gt_of_ne h with hlt | hgt
  · right
    refine ⟨hlt, List.zipWith Int.xor a b, xor_eq_zipWith a b (by omega), ?_, ?_⟩
    · rw [List.length_zipWith]; omega
    · rw [xor_eq_zipWith a _ (by rw [List.length_take]; omega)]
      rw [zipWith_take_right]
  · left
    exact ⟨hgt, xor_eq_none a b hgt⟩

/-- Witness of the amended C10 on a two-element and a three-element list. -/
theorem xor_length_mismatch_witness :
    (([1, 1, 1] : List Int).length < ([1, 0] : List Int).length ∧
        xor [1, 0] [1, 1, 1] = none) ∨
      (([1, 0] : List Int).length < ([1, 1, 1] : List Int).length ∧
        ∃ c, xor [1, 0] [1, 1, 1] = some c ∧ c.length = ([1, 0] : List Int).length ∧
          xor [1, 0] (([1, 1, 1] : List Int).take ([1, 0] : List Int).length) = some c) :=
  xor_length_mismatch [1, 0] [1, 1, 1] (by decide)

/-- C11: for every input of exactly 4 bits and each of the tables `sBox0` and
`sBox1`, `sBoxLookup` returns exactly two bits `[hi, lo]` with `2*hi + lo`
the table entry at row `input[0]*2 + input[3]` and column
`input[1]*2 + input[2]`; the output encodes a value in `0..3`. -/
theorem sBoxLookup_spec (input : List Int) (sBox : List (List Int))
    (hlen : input.length = 4) (hbits : IsBits input) (hbox : sBox = sBox0 ∨ sBox = sBox1) :
    ∃ x0 x1 x2 x3 r e hi lo, input = [x0, x1, x2, x3] ∧
      index sBox (x0 * 2 + x3) = some r ∧ index r (x1 * 2 + x2) = some e ∧
      sBoxLookup input sBox = some [hi, lo] ∧ IsBit hi ∧ IsBit lo ∧
      2 * hi + lo = e ∧ 0 ≤ 2 * hi + lo ∧ 2 * hi + lo ≤ 3 := by
  obtain _ | ⟨x0, _ | ⟨x1, _ | ⟨x2, _ | ⟨x3, _ | ⟨x4, v⟩⟩⟩⟩⟩ := input <;> simp at hlen
  have h0 : IsBit x0 := hbits x0 (by simp)
  have h1 : IsBit x1 := hbits x1 (by simp)
  have h2 : IsBit x2 := hbits x2 (by simp)
  have h3 : IsBit x3 := hbits x3 (by simp)
  rcases hbox with rfl | rfl <;> rcases h0 with rfl | rfl <;> rcases h1 with rfl | rfl <;>
    rcases h2 with rfl | rfl <;> rcases h3 with rfl | rfl <;>
    exact ⟨_, _, _, _, _, _, _, _, rfl, rfl, rfl, rfl, by decide, by decide, by decide,
      by decide, by decide⟩

/-- Witness of C11 on the input 1011 and the table `sBox0`. -/
theorem sBoxLookup_spec_witness :
    ∃ x0 x1 x2 x3 r e hi lo, ([1, 0, 1, 1] : List Int) = [x0, x1, x2, x3] ∧
      index sBox0 (x0 * 2 + x3) = some r ∧ index r (x1 * 2 + x2) = some e ∧
      sBoxLookup [1, 0, 1, 1] sBox0 = some [hi, lo] ∧ IsBit hi ∧ IsBit lo ∧
      2 * hi + lo = e ∧ 0 ≤ 2 * hi + lo ∧ 2 * hi + lo ≤ 3 :=
  sBoxLookup_spec [1, 0, 1, 1] sBox0 rfl (by decide) (Or.inl rfl)

/-- C12, as stated, fails: on a master key of 11 bits `generateKeys` returns
the round keys of its first 10 bits. -/
theorem generateKeys_long_key_counterexample :
    ([1, 0, 1, 0, 0, 0, 0, 0, 1, 0, 1] : List Int).length ≠ 10 ∧
      generateKeys [1, 0, 1, 0, 0, 0, 0, 0, 1, 0, 1] =
        some ([1, 0, 1, 0, 0, 1, 0, 0], [0, 1, 0, 0, 0, 0, 1, 1]) := by
  decide

/-- C12, amended: for every master key whose length is not 10, either the key
is shorter and `generateKeys` does not return (index out of range in the P10
permutation), or the key is longer and `generateKeys` returns the round keys
of its first 10 elements. -/
theorem generateKeys_length_mismatch (key : List Int) (h : key.length ≠ 10) :
    (key.length < 10 ∧ generateKeys key = none) ∨
      (10 < key.length ∧
        ∃ k1 k2, generateKeys key = some (k1, k2) ∧
          generateKeys (key.take 10) = some (k1, k2)) := by
  rcases Nat.lt_or_gt_of_ne h with hlt | hgt
  · left
    refine ⟨hlt, ?_⟩
    have hp : permute key p10 = none :=
      permute_eq_none_of_entry key p10 10 (by decide) (Or.inr (by omega))
    simp only [generateKeys, Option.bind_eq_bind]
    rw [hp]
    rfl
  · right
    obtain ⟨a0, a1, a2, a3, a4, a5, a6, a7, a8, a9, rest, rfl⟩ :=
      length_ge_ten key (by omega)
    refine ⟨hgt, _, _, generateKeys_ten_append a0 a1 a2 a3 a4 a5 a6 a7 a8 a9 rest, ?_⟩
    have ht : (a0 :: a1 :: a2 :: a3 :: a4 :: a5 :: a6 :: a7 :: a8 :: a9 :: rest).take 10 =
        [a0, a1, a2, a3, a4, a5, a6, a7, a8, a9] := by
      simp
    rw [ht]
    exact generateKeys_ten a0 a1 a2 a3 a4 a5 a6 a7 a8 a9

/-- Witness of the amended C12 on a master key of 11 bits. -/
theorem generateKeys_length_mismatch_witness :
    (([1, 0, 1, 0, 0, 0, 0, 0, 1, 0, 1] : List Int).length < 10 ∧
        generateKeys [1, 0, 1, 0, 0, 0, 0, 0, 1, 0, 1] = none) ∨
      (10 < ([1, 0, 1, 0, 0, 0, 0, 0, 1, 0, 1] : List Int).length ∧
        ∃ k1 k2, generateKeys [1, 0, 1, 0, 0, 0, 0, 0, 1, 0, 1] = some (k1, k2) ∧
          generateKeys (([1, 0, 1, 0, 0, 0, 0, 0, 1, 0, 1] : List Int).take 10) =
            some (k1, k2)) :=
  generateKeys_length_mismatch [1, 0, 1, 0, 0, 0, 0, 0, 1, 0, 1] (by decide)

/-- C13: for every 10-bit master key and every position `i` in `0..9`,
flipping bit `i` of the key gives again a 10-bit key whose pair (K1, K2)
differs from the pair of the original key; all four round keys have 8
elements. -/
theorem generateKeys_flip (key : List Int) (hlen : key.length = 10) (hbits : IsBits key)
    (i : Nat) (hi : i < 10) :
    ∃ k1 k2 f1 f2, generateKeys key = some (k1, k2) ∧
      generateKeys (key.set i (1 - key.getD i 0)) = some (f1, f2) ∧
      (key.set i (1 - key.getD i 0)).length = 10 ∧
      IsBits (key.set i (1 - key.getD i 0)) ∧
      k1.length = 8 ∧ k2.length = 8 ∧ f1.length = 8 ∧ f2.length = 8 ∧
      (k1, k2) ≠ (f1, f2) := by
  have hfb : IsBits (key.set i (1 - key.getD i 0)) :=
    isBits_set key i _ hbits (isBit_one_sub _ (isBit_getD key i hbits))
  have hfl : (key.set i (1 - key.getD i 0)).length = 10 := by
    rw [List.length_set]; exact hlen
  obtain ⟨a0, a1, a2, a3, a4, a5, a6, a7, a8, a9, rfl⟩ := length_eq_ten key hlen
  interval_cases i <;>
    refine ⟨_, _, _, _, generateKeys_ten _ _ _ _ _ _ _ _ _ _,
      generateKeys_ten _ _ _ _ _ _ _ _ _ _, hfl, hfb, rfl, rfl, rfl, rfl, ?_⟩ <;>
    intro h <;>
    simp only [Prod.mk.injEq, List.cons.injEq, List.getD_cons_zero, List.getD_cons_succ,
      and_true, true_and] at h <;>
    omega

/-- Witness of C13: flipping bit 1 of the master key 1010000010. -/
theorem generateKeys_flip_witness :
    ∃ k1 k2 f1 f2, generateKeys [1, 0, 1, 0, 0, 0, 0, 0, 1, 0] = some (k1, k2) ∧
      generateKeys (([1, 0, 1, 0, 0, 0, 0, 0, 1, 0] : List Int).set 1
        (1 - ([1, 0, 1, 0, 0, 0, 0, 0, 1, 0] : List Int).getD 1 0)) = some (f1, f2) ∧
      (([1, 0, 1, 0, 0, 0, 0, 0, 1, 0] : List Int).set 1
        (1 - ([1, 0, 1, 0, 0, 0, 0, 0, 1, 0] : List Int).getD 1 0)).length = 10 ∧
      IsBits (([1, 0, 1, 0, 0, 0, 0, 0, 1, 0] : List Int).set 1
        (1 - ([1, 0, 1, 0, 0, 0, 0, 0, 1, 0] : List Int).getD 1 0)) ∧
      k1.length = 8 ∧ k2.length = 8 ∧ f1.length = 8 ∧ f2.length = 8 ∧
      (k1, k2) ≠ (f1, f2) :=
  generateKeys_flip [1, 0, 1, 0, 0, 0, 0, 0, 1, 0] rfl (by decide) 1 (by decide)

/-- C14: for every master key of 10 elements, `generateKeys` (rotate by 1,
then by 2 more) returns, and returns the keys of the schedule by cumulative
rotation: K1 from the P10 halves rotated by 1, K2 from them rotated by 3. -/
theorem generateKeys_eq_cumulative (key : List Int) (hlen : key.length = 10) :
    generateKeys key = generateKeysCumulative key ∧
      ∃ k1 k2, generateKeys key = some (k1, k2) := by
  obtain ⟨a0, a1, a2, a3, a4, a5, a6, a7, a8, a9, rfl⟩ := length_eq_ten key hlen
  rw [generateKeys_ten, generateKeysCumulative_ten]
  exact ⟨rfl, _, _, rfl⟩

/-- Witness of C14 on the master key 1010000010. -/
theorem generateKeys_eq_cumulative_witness :
    generateKeys [1, 0, 1, 0, 0, 0, 0, 0, 1, 0] =
        generateKeysCumulative [1, 0, 1, 0, 0, 0, 0, 0, 1, 0] ∧
      ∃ k1 k2, generateKeys [1, 0, 1, 0, 0, 0, 0, 0, 1, 0] = some (k1, k2) :=
  generateKeys_eq_cumulative [1, 0, 1, 0, 0, 0, 0, 0, 1, 0] rfl

/-- C15: for every 8-bit block and 8-bit round key, with L and R the first
and last 4 bits of `permute(block, ip)` and `x = xor(permute(R, ep), key)`,
`permute(encrypt(block, key), ip)` is
`xor(permute(sBoxLookup(x[0:4], sBox0) ++ sBoxLookup(x[4:8], sBox1), [2,4,3,1]), L) ++ R`. -/
theorem encrypt_round_form (block key : List Int) (hb : block.length = 8)
    (hbb : IsBits block) (hk : key.length = 8) (hkb : IsBits key) :
    ∃ pp expanded x s0 s1 permuted newLeft c,
      permute block ip = some pp ∧
      permute (pp.drop 4) ep = some expanded ∧
      xor expanded key = some x ∧
      sBoxLookup (x.take 4) sBox0 = some s0 ∧
      sBoxLookup (x.drop 4) sBox1 = some s1 ∧
      permute (s0 ++ s1) p4 = some permuted ∧
      xor permuted (pp.take 4) = some newLeft ∧
      encrypt block key = some c ∧
      permute c ip = some (newLeft ++ pp.drop 4) := by
  obtain ⟨b0, b1, b2, b3, b4, b5, b6, b7, rfl⟩ := length_eq_eight block hb
  obtain ⟨k0, k1, k2, k3, k4, k5, k6, k7, rfl⟩ := length_eq_eight key hk
  obtain ⟨B0, B1, B2, B3, B4, B5, B6, B7⟩ := isBits_eight _ _ _ _ _ _ _ _ hbb
  obtain ⟨K0, K1, K2, K3, K4, K5, K6, K7⟩ := isBits_eight _ _ _ _ _ _ _ _ hkb
  obtain ⟨t0, t1, h8, T0, T1⟩ := sBoxLookup_sBox0_bits _ _ _ _
    (isBit_xor b6 k0 B6 K0) (isBit_xor b3 k1 B3 K1) (isBit_xor b7 k2 B7 K2)
    (isBit_xor b4 k3 B4 K3)
  obtain ⟨t2, t3, h9, T2, T3⟩ := sBoxLookup_sBox1_bits _ _ _ _
    (isBit_xor b7 k4 B7 K4) (isBit_xor b4 k5 B4 K5) (isBit_xor b6 k6 B6 K6)
    (isBit_xor b3 k7 B3 K7)
  have h5 : xor [b6, b3, b7, b4, b7, b4, b6, b3] [k0, k1, k2, k3, k4, k5, k6, k7] =
      some [Int.xor b6 k0, Int.xor b3 k1, Int.xor b7 k2, Int.xor b4 k3,
        Int.xor b7 k4, Int.xor b4 k5, Int.xor b6 k6, Int.xor b3 k7] :=
    xor_eq_zipWith _ _ (le_refl 8)
  have h11 : xor [t1, t3, t2, t0] [b1, b5, b2, b0] =
      some [Int.xor t1 b1, Int.xor t3 b5, Int.xor t2 b2, Int.xor t0 b0] :=
    xor_eq_zipWith _ _ (le_refl 4)
  exact ⟨[b1, b5, b2, b0, b3, b7, b4, b6], _, _, _, _, [t1, t3, t2, t0], _, _,
    rfl, rfl, h5, h8, h9, rfl, h11,
    encrypt_eight b0 b1 b2 b3 b4 b5 b6 b7 k0 k1 k2 k3 k4 k5 k6 k7 t0 t1 t2 t3 h8 h9, rfl⟩

/-- Witness of C15 on the block 10100101 under the round key 10100100. -/
theorem encrypt_round_form_witness :
    ∃ pp expanded x s0 s1 permuted newLeft c,
      permute [1, 0, 1, 0, 0, 1, 0, 1] ip = some pp ∧
      permute (pp.drop 4) ep = some expanded ∧
      xor expanded [1, 0, 1, 0, 0, 1, 0, 0] = some x ∧
      sBoxLookup (x.take 4) sBox0 = some s0 ∧
      sBoxLookup (x.drop 4) sBox1 = some s1 ∧
      permute (s0 ++ s1) p4 = some permuted ∧
      xor permuted (pp.take 4) = some newLeft ∧
      encrypt [1, 0, 1, 0, 0, 1, 0, 1] [1, 0, 1, 0, 0, 1, 0, 0] = some c ∧
      permute c ip = some (newLeft ++ pp.drop 4) :=
  encrypt_round_form [1, 0, 1, 0, 0, 1, 0, 1] [1, 0, 1, 0, 0, 1, 0, 0] rfl (by decide) rfl
    (by decide)

/-- C16, as stated, fails: the table `ep` has 8 entries, not 4, and the
expansion of a 4-bit half has the length of an 8-bit round key. -/
theorem ep_length_counterexample :
    ¬ (ep.length = 4) ∧
      ∃ expanded, permute [0, 1, 1, 0] ep = some expanded ∧ expanded.length = 8 ∧
        expanded.length = ([1, 0, 1, 0, 0, 1, 0, 0] : List Int).length :=
  ⟨by decide, _, rfl, rfl, rfl⟩

/-- C16, amended: the table `ep` has length 8, so in `encrypt` on an 8-bit
block and an 8-element round key the expanded value `permute(right, ep)` is an
8-bit vector, and the first `xor` is applied to operands of equal length 8. -/
theorem ep_expansion (block key : List Int) (hb : block.length = 8) (hbb : IsBits block)
    (hk : key.length = 8) :
    ep.length = 8 ∧
      ∃ pp expanded xored, permute block ip = some pp ∧
        permute (pp.drop 4) ep = some expanded ∧
        expanded.length = 8 ∧ IsBits expanded ∧ expanded.length = key.length ∧
        xor expanded key = some xored := by
  obtain ⟨b0, b1, b2, b3, b4, b5, b6, b7, rfl⟩ := length_eq_eight block hb
  obtain ⟨B0, B1, B2, B3, B4, B5, B6, B7⟩ := isBits_eight _ _ _ _ _ _ _ _ hbb
  refine ⟨rfl, [b1, b5, b2, b0, b3, b7, b4, b6], [b6, b3, b7, b4, b7, b4, b6, b3], _,
    rfl, rfl, rfl, isBits_eight_of _ _ _ _ _ _ _ _ B6 B3 B7 B4 B7 B4 B6 B3, ?_,
    xor_eq_zipWith _ _ ?_⟩
  · rw [hk]; rfl
  · rw [hk]; exact le_refl 8

/-- Witness of the amended C16 on the block 10100101 and the key 10100100. -/
theorem ep_expansion_witness :
    ep.length = 8 ∧
      ∃ pp expanded xored, permute [1, 0, 1, 0, 0, 1, 0, 1] ip = some pp ∧
        permute (pp.drop 4) ep = some expanded ∧
        expanded.length = 8 ∧ IsBits expanded ∧
        expanded.length = ([1, 0, 1, 0, 0, 1, 0, 0] : List Int).length ∧
        xor expanded [1, 0, 1, 0, 0, 1, 0, 0] = some xored :=
  ep_expansion [1, 0, 1, 0, 0, 1, 0, 1] [1, 0, 1, 0, 0, 1, 0, 0] rfl (by decide) rfl

/-- C17: for every 8-bit block `p` and every 8-bit round key `k`, `encrypt(p, k)`
returns an 8-bit block `c` and `encrypt(c, k)` returns `p`: one round under a
fixed key is its own inverse. -/
theorem encrypt_involution (p k : List Int) (hp : p.length = 8) (hpb : IsBits p)
    (hk : k.length = 8) (hkb : IsBits k) :
    ∃ c, encrypt p k = some c ∧ c.length = 8 ∧ IsBits c ∧ encrypt c k = some p := by
  obtain ⟨b0, b1, b2, b3, b4, b5, b6, b7, rfl⟩ := length_eq_eight p hp
  obtain ⟨k0, k1, k2, k3, k4, k5, k6, k7, rfl⟩ := length_eq_eight k hk
  obtain ⟨B0, B1, B2, B3, B4, B5, B6, B7⟩ := isBits_eight _ _ _ _ _ _ _ _ hpb
  obtain ⟨K0, K1, K2, K3, K4, K5, K6, K7⟩ := isBits_eight _ _ _ _ _ _ _ _ hkb
  obtain ⟨t0, t1, h8, T0, T1⟩ := sBoxLookup_sBox0_bits _ _ _ _
    (isBit_xor b6 k0 B6 K0) (isBit_xor b3 k1 B3 K1) (isBit_xor b7 k2 B7 K2)
    (isBit_xor b4 k3 B4 K3)
  obtain ⟨t2, t3, h9, T2, T3⟩ := sBoxLookup_sBox1_bits _ _ _ _
    (isBit_xor b7 k4 B7 K4) (isBit_xor b4 k5 B4 K5) (isBit_xor b6 k6 B6 K6)
    (isBit_xor b3 k7 B3 K7)
  refine ⟨_, encrypt_eight b0 b1 b2 b3 b4 b5 b6 b7 k0 k1 k2 k3 k4 k5 k6 k7 t0 t1 t2 t3 h8 h9,
    rfl, ?_, ?_⟩
  · exact isBits_eight_of _ _ _ _ _ _ _ _ (isBit_xor t0 b0 T0 B0) (isBit_xor t1 b1 T1 B1)
      (isBit_xor t2 b2 T2 B2) B3 B4 (isBit_xor t3 b5 T3 B5) B6 B7
  · rw [encrypt_eight _ _ _ b3 b4 _ b6 b7 k0 k1 k2 k3 k4 k5 k6 k7 t0 t1 t2 t3 h8 h9,
      xor_xor_bit t0 b0 T0 B0, xor_xor_bit t1 b1 T1 B1, xor_xor_bit t2 b2 T2 B2,
      xor_xor_bit t3 b5 T3 B5]

/-- Witness of C17 on the block 10100101 under the round key 10100100. -/
theorem encrypt_involution_witness :
    ∃ c, encrypt [1, 0, 1, 0, 0, 1, 0, 1] [1, 0, 1, 0, 0, 1, 0, 0] = some c ∧
      c.length = 8 ∧ IsBits c ∧
      encrypt c [1, 0, 1, 0, 0, 1, 0, 0] = some [1, 0, 1, 0, 0, 1, 0, 1] :=
  encrypt_involution [1, 0, 1, 0, 0, 1, 0, 1] [1, 0, 1, 0, 0, 1, 0, 0] rfl (by decide) rfl
    (by decide)

/-- C18: for every 8-bit plaintext `p` and every two 10-bit master keys, with
round keys (K1, K2) and (K1', K2'), the two-round ciphertexts `c` and `c'`
are such that the last 4 bits of `permute(c, ip)` and of `permute(c', ip)`
both equal the last 4 bits of `permute(p, ip)`. -/
theorem right_half_key_independent (p key key' : List Int)
    (hp : p.length = 8) (hpb : IsBits p) (hk : key.length = 10) (hkb : IsBits key)
    (hk' : key'.length = 10) (hkb' : IsBits key') :
    ∃ K1 K2 K1' K2' c c' pp pc pc',
      generateKeys key = some (K1, K2) ∧ generateKeys key' = some (K1', K2') ∧
      (encrypt p K1).bind (fun x => encrypt x K2) = some c ∧
      (encrypt p K1').bind (fun x => encrypt x K2') = some c' ∧
      permute p ip = some pp ∧ permute c ip = some pc ∧ permute c' ip = some pc' ∧
      pc.drop 4 = pp.drop 4 ∧ pc'.drop 4 = pp.drop 4 := by
  obtain ⟨a0, a1, a2, a3, a4, a5, a6, a7, a8, a9, rfl⟩ := length_eq_ten key hk
  obtain ⟨d0, d1, d2, d3, d4, d5, d6, d7, d8, d9, rfl⟩ := length_eq_ten key' hk'
  have A : ∀ x ∈ [a0, a1, a2, a3, a4, a5, a6, a7, a8, a9], IsBit x := hkb
  have D : ∀ x ∈ [d0, d1, d2, d3, d4, d5, d6, d7, d8, d9], IsBit x := hkb'
  obtain ⟨c, pp, pc, hc, hpp, hpc, hd⟩ := two_rounds_right_half p
    [a0, a6, a8, a3, a7, a2, a9, a5] [a7, a2, a5, a4, a9, a1, a8, a0] hp hpb rfl
    (isBits_eight_of _ _ _ _ _ _ _ _ (A a0 (by simp)) (A a6 (by simp)) (A a8 (by simp))
      (A a3 (by simp)) (A a7 (by simp)) (A a2 (by simp)) (A a9 (by simp)) (A a5 (by simp)))
    rfl
    (isBits_eight_of _ _ _ _ _ _ _ _ (A a7 (by simp)) (A a2 (by simp)) (A a5 (by simp))
      (A a4 (by simp)) (A a9 (by simp)) (A a1 (by simp)) (A a8 (by simp)) (A a0 (by simp)))
  obtain ⟨c', pp', pc', hc', hpp', hpc', hd'⟩ := two_rounds_right_half p
    [d0, d6, d8, d3, d7, d2, d9, d5] [d7, d2, d5, d4, d9, d1, d8, d0] hp hpb rfl
    (isBits_eight_of _ _ _ _ _ _ _ _ (D d0 (by simp)) (D d6 (by simp)) (D d8 (by simp))
      (D d3 (by simp)) (D d7 (by simp)) (D d2 (by simp)) (D d9 (by simp)) (D d5 (by simp)))
    rfl
    (isBits_eight_of _ _ _ _ _ _ _ _ (D d7 (by simp)) (D d2 (by simp)) (D d5 (by simp))
      (D d4 (by simp)) (D d9 (by simp)) (D d1 (by simp)) (D d8 (by simp)) (D d0 (by simp)))
  have hsame : pp' = pp := by
    rw [hpp] at hpp'
    exact (Option.some.inj hpp').symm
  rw [hsame] at hd'
  exact ⟨_, _, _, _, c, c', pp, pc, pc', generateKeys_ten a0 a1 a2 a3 a4 a5 a6 a7 a8 a9,
    generateKeys_ten d0 d1 d2 d3 d4 d5 d6 d7 d8 d9, hc, hc', hpp, hpc, hpc', hd, hd'⟩

/-- Witness of C18 on the plaintext 10100101 and the master keys 1010000010
and 0111111101. -/
theorem right_half_key_independent_witness :
    ∃ K1 K2 K1' K2' c c' pp pc pc',
      generateKeys [1, 0, 1, 0, 0, 0, 0, 0, 1, 0] = some (K1, K2) ∧
      generateKeys [0, 1, 1, 1, 1, 1, 1, 1, 0, 1] = some (K1', K2') ∧
      (encrypt [1, 0, 1, 0, 0, 1, 0, 1] K1).bind (fun x => encrypt x K2) = some c ∧
      (encrypt [1, 0, 1, 0, 0, 1, 0, 1] K1').bind (fun x => encrypt x K2') = some c' ∧
      permute [1, 0, 1, 0, 0, 1, 0, 1] ip = some pp ∧ permute c ip = some pc ∧
      permute c' ip = some pc' ∧ pc.drop 4 = pp.drop 4 ∧ pc'.drop 4 = pp.drop 4 :=
  right_half_key_independent [1, 0, 1, 0, 0, 1, 0, 1] [1, 0, 1, 0, 0, 0, 0, 0, 1, 0]
    [0, 1, 1, 1, 1, 1, 1, 1, 0, 1] rfl (by decide) rfl (by decide) rfl (by decide)

/-- C19: for every 8-bit block `p` and all 8-bit round keys `k1` and `k2`,
`encrypt(encrypt(p, k1), k2)` and `encrypt(encrypt(p, k2), k1)` both return,
and return the same block. -/
theorem encrypt_rounds_commute (p k m : List Int) (hp : p.length = 8) (hpb : IsBits p)
    (hk : k.length = 8) (hkb : IsBits k) (hm : m.length = 8) (hmb : IsBits m) :
    ∃ c1 c2 r, encrypt p k = some c1 ∧ encrypt c1 m = some r ∧
      encrypt p m = some c2 ∧ encrypt c2 k = some r := by
  obtain ⟨b0, b1, b2, b3, b4, b5, b6, b7, rfl⟩ := length_eq_eight p hp
  obtain ⟨k0, k1, k2, k3, k4, k5, k6, k7, rfl⟩ := length_eq_eight k hk
  obtain ⟨m0, m1, m2, m3, m4, m5, m6, m7, rfl⟩ := length_eq_eight m hm
  obtain ⟨B0, B1, B2, B3, B4, B5, B6, B7⟩ := isBits_eight _ _ _ _ _ _ _ _ hpb
  obtain ⟨K0, K1, K2, K3, K4, K5, K6, K7⟩ := isBits_eight _ _ _ _ _ _ _ _ hkb
  obtain ⟨M0, M1, M2, M3, M4, M5, M6, M7⟩ := isBits_eight _ _ _ _ _ _ _ _ hmb
  obtain ⟨t0, t1, h8, T0, T1⟩ := sBoxLookup_sBox0_bits _ _ _ _
    (isBit_xor b6 k0 B6 K0) (isBit_xor b3 k1 B3 K1) (isBit_xor b7 k2 B7 K2)
    (isBit_xor b4 k3 B4 K3)
  obtain ⟨t2, t3, h9, T2, T3⟩ := sBoxLookup_sBox1_bits _ _ _ _
    (isBit_xor b7 k4 B7 K4) (isBit_xor b4 k5 B4 K5) (isBit_xor b6 k6 B6 K6)
    (isBit_xor b3 k7 B3 K7)
  obtain ⟨u0, u1, g8, U0, U1⟩ := sBoxLookup_sBox0_bits _ _ _ _
    (isBit_xor b6 m0 B6 M0) (isBit_xor b3 m1 B3 M1) (isBit_xor b7 m2 B7 M2)
    (isBit_xor b4 m3 B4 M3)
  obtain ⟨u2, u3, g9, U2, U3⟩ := sBoxLookup_sBox1_bits _ _ _ _
    (isBit_xor b7 m4 B7 M4) (isBit_xor b4 m5 B4 M5) (isBit_xor b6 m6 B6 M6)
    (isBit_xor b3 m7 B3 M7)
  refine ⟨_, _, _,
    encrypt_eight b0 b1 b2 b3 b4 b5 b6 b7 k0 k1 k2 k3 k4 k5 k6 k7 t0 t1 t2 t3 h8 h9,
    encrypt_eight _ _ _ b3 b4 _ b6 b7 m0 m1 m2 m3 m4 m5 m6 m7 u0 u1 u2 u3 g8 g9,
    encrypt_eight b0 b1 b2 b3 b4 b5 b6 b7 m0 m1 m2 m3 m4 m5 m6 m7 u0 u1 u2 u3 g8 g9, ?_⟩
  rw [encrypt_eight _ _ _ b3 b4 _ b6 b7 k0 k1 k2 k3 k4 k5 k6 k7 t0 t1 t2 t3 h8 h9,
    xor_left_comm_bit t0 u0 b0 T0 U0 B0, xor_left_comm_bit t1 u1 b1 T1 U1 B1,
    xor_left_comm_bit t2 u2 b2 T2 U2 B2, xor_left_comm_bit t3 u3 b5 T3 U3 B5]

/-- Witness of C19 on the block 10100101 and the round keys 10100100 and
01000011. -/
theorem encrypt_rounds_commute_witness :
    ∃ c1 c2 r, encrypt [1, 0, 1, 0, 0, 1, 0, 1] [1, 0, 1, 0, 0, 1, 0, 0] = some c1 ∧
      encrypt c1 [0, 1, 0, 0, 0, 0, 1, 1] = some r ∧
      encrypt [1, 0, 1, 0, 0, 1, 0, 1] [0, 1, 0, 0, 0, 0, 1, 1] = some c2 ∧
      encrypt c2 [1, 0, 1, 0, 0, 1, 0, 0] = some r :=
  encrypt_rounds_commute [1, 0, 1, 0, 0, 1, 0, 1] [1, 0, 1, 0, 0, 1, 0, 0]
    [0, 1, 0, 0, 0, 0, 1, 1] rfl (by decide) rfl (by decide) rfl (by decide)

/-- C20: `generateKeys` is injective on master keys of 10 elements (bits or
not): two such keys with the same pair (K1, K2) are equal. -/
theorem generateKeys_injective (a b : List Int) (ha : a.length = 10) (hb : b.length = 10)
    (h : generateKeys a = generateKeys b) : a = b := by
  obtain ⟨a0, a1, a2, a3, a4, a5, a6, a7, a8, a9, rfl⟩ := length_eq_ten a ha
  obtain ⟨d0, d1, d2, d3, d4, d5, d6, d7, d8, d9, rfl⟩ := length_eq_ten b hb
  rw [generateKeys_ten, generateKeys_ten] at h
  simp only [Option.some.injEq, Prod.mk.injEq, List.cons.injEq, and_true] at h
  obtain ⟨⟨e0, e6, e8, e3, e7, e2, e9, e5⟩, ⟨-, -, -, e4, -, e1, -, -⟩⟩ := h
  rw [e0, e1, e2, e3, e4, e5, e6, e7, e8, e9]

/-- Witness of C20 on the master key 1010000010. -/
theorem generateKeys_injective_witness :
    generateKeys [1, 0, 1, 0, 0, 0, 0, 0, 1, 0] = generateKeys [1, 0, 1, 0, 0, 0, 0, 0, 1, 0] ∧
      ([1, 0, 1, 0, 0, 0, 0, 0, 1, 0] : List Int) = [1, 0, 1, 0, 0, 0, 0, 0, 1, 0] :=
  ⟨rfl, generateKeys_injective [1, 0, 1, 0, 0, 0, 0, 0, 1, 0] [1, 0, 1, 0, 0, 0, 0, 0, 1, 0]
    rfl rfl rfl⟩

end SDES
